import Mathlib

/-!
Shallow embedding of the quickfind search-and-ranking engine.

Strings are modelled as lists of characters (`Str`).  JavaScript string
primitives (`toLowerCase`, `trim`, `indexOf`, `split`, `slice`) are embedded
by their ECMAScript specification restricted to the ASCII fragment that the
engine manipulates.  JavaScript numbers that only ever hold integers are
modelled as `Nat`/`Int`; fuzzy-matching scores, which involve division,
are modelled as `ℚ`.  `Array.prototype.sort`, which ECMAScript requires to
be a stable sort consistent with the comparator, is modelled by
`List.insertionSort` (a stable sort) over the comparator's ordering.
While-loops are embedded as structural recursion on an explicit fuel
argument large enough for the loop's bound, so that every definition is
executable by kernel reduction; fuel sufficiency is proved where a claim
depends on termination.
-/

set_option maxHeartbeats 4000000
set_option maxRecDepth 4000

abbrev Str := List Char

/-- Default character used with `List.getD`; every use is guarded by a
bounds check mirroring the JavaScript code, so the default is never
observable. -/
def dChar : Char := 'a'

/-- JavaScript `String.prototype.toLowerCase`, ASCII fragment. -/
def toLowerStr (s : Str) : Str := s.map Char.toLower

/-- JavaScript `String.prototype.trim`, ASCII-whitespace fragment. -/
def jsTrim (s : Str) : Str :=
  ((s.dropWhile Char.isWhitespace).reverse.dropWhile Char.isWhitespace).reverse

/-- JavaScript `String.prototype.split` with a single-character separator. -/
def splitOnChar (sep : Char) (s : Str) : List Str :=
  s.foldr (fun c acc =>
    match acc with
    | [] => [[c]]
    | g :: gs => if c = sep then [] :: g :: gs else (c :: g) :: gs) [[]]

/-- JavaScript `String.prototype.indexOf(pat, start)`: the least position
`i ≥ min start s.length` at which `pat` occurs in `s` (ECMAScript clamps the
start position to the string length, which matters for the empty pattern). -/
def jsIndexOfFrom (s pat : Str) (start : Nat) : Option Nat :=
  (List.range' (min start s.length) (s.length + 1 - min start s.length)).find?
    (fun i => decide ((s.drop i).take pat.length = pat))

/-- JavaScript `String.prototype.indexOf(pat)`. -/
def jsIndexOf (s pat : Str) : Option Nat := jsIndexOfFrom s pat 0

/-!
## Fuzzy matcher (`FuzzyMatcher` in `extension.ts`)

Input type `SearchResult` of `fuzzySearchProvider.ts`; the `context` field is
irrelevant to the matcher and omitted.
-/

structure FuzzySearchResult where
  file : Str
  line : Nat
  column : Nat
  text : Str
deriving DecidableEq

structure MatchScore where
  score : ℚ
  matchedIndices : List Nat
deriving DecidableEq

structure FuzzyMatch where
  result : FuzzySearchResult
  score : ℚ
  matchedIndices : List Nat
deriving DecidableEq

/-- Embedding of `FuzzyMatcher.isSeparator`: the regular expression `[\s\-_/.\\]`. -/
def isSeparator (c : Char) : Bool :=
  c.isWhitespace || c == '-' || c == '_' || c == '/' || c == '.' || c == '\\'

/-- Embedding of `FuzzyMatcher.isLetter`: the regular expression `[a-zA-Z]`. -/
def isLetterE (c : Char) : Bool := c.isAlpha

/-- Embedding of `FuzzyMatcher.isCamelCase`. -/
def isCamelCase (text : Str) (index : Nat) : Bool :=
  if index == 0 then false
  else
    let prevChar := text.getD (index - 1) dChar
    let currentChar := text.getD index dChar
    prevChar.toLower == prevChar && currentChar.toUpper == currentChar &&
      isLetterE currentChar

/-- Embedding of `FuzzyMatcher.getPositionBonus`.  (In the engine `textLength` is always
positive at every call site, since the searchable text contains at least the
space separating file name from line text.) -/
def getPositionBonus (index textLength : Nat) : ℚ :=
  max 0 (50 - ((index : ℚ) * 50) / (textLength : ℚ))

/-- Embedding of `FuzzyMatcher.getSearchableText`: last `/`-separated component of the
file path, a space, then the line text, all lower-cased. -/
def getSearchableText (r : FuzzySearchResult) : Str :=
  let filename := (splitOnChar '/' r.file).getLastD []
  toLowerStr (filename ++ [' '] ++ r.text)

/-- Embedding of `FuzzyMatcher.findExactMatch`: exact substring occurrence of the query. -/
def findExactMatch (text query : Str) : Option MatchScore :=
  match jsIndexOf text query with
  | some exactIndex =>
      some ⟨1000 + 16 * (query.length : ℚ) + getPositionBonus exactIndex text.length,
            (List.range query.length).map (fun k => exactIndex + k)⟩
  | none => none

/-- Inner while-loop of `FuzzyMatcher.findBestConsecutiveMatch`, fuel-indexed.
Each iteration advances `currentPos` by one, so fuel `text.length - currentPos`
is exact; on (unreachable) fuel exhaustion the current state is returned. -/
def consecGoF : Nat → Str → Str → Nat → Nat → Nat → Nat → List Nat →
    List Nat × Nat × Nat
  | 0, _, _, _, queryPos, _, maxConsecutive, acc => (acc, queryPos, maxConsecutive)
  | fuel + 1, text, query, currentPos, queryPos, consecutive, maxConsecutive, acc =>
      if currentPos < text.length ∧ queryPos < query.length then
        if (text.getD currentPos dChar).toLower = (query.getD queryPos dChar).toLower then
          consecGoF fuel text query (currentPos + 1) (queryPos + 1) (consecutive + 1)
            (max maxConsecutive (consecutive + 1)) (acc ++ [currentPos])
        else
          consecGoF fuel text query (currentPos + 1) queryPos 0 maxConsecutive acc
      else (acc, queryPos, maxConsecutive)

/-- One start position of `FuzzyMatcher.findBestConsecutiveMatch`'s outer loop:
returns (matchedIndices, final queryPos, maxConsecutive). -/
def consecGo (text query : Str) (start : Nat) : List Nat × Nat × Nat :=
  consecGoF (text.length - start) text query start 0 0 0 []

/-- Score of a qualifying start position in `findBestConsecutiveMatch`. -/
def consecScore (text : Str) (start : Nat) (idxs : List Nat)
    (maxConsecutive : Nat) : ℚ :=
  500 + (maxConsecutive : ℚ) * 50
    + (if start == 0 || isSeparator (text.getD (start - 1) dChar) then 100 else 0)
    + getPositionBonus start text.length
    - ((idxs.getLastD 0 - idxs.headD 0 + 1 : Nat) : ℚ) * 2

/-- One iteration of `findBestConsecutiveMatch`'s outer loop: keep the
qualifying start (all query characters matched) with the strictly best
score. -/
def consecFoldStep (text query : Str) (b : ℚ × List Nat) (start : Nat) :
    ℚ × List Nat :=
  let r := consecGo text query start
  if r.2.1 = query.length then
    let score := consecScore text start r.1 r.2.2
    if b.1 < score then (score, r.1) else b
  else b

/-- Embedding of `FuzzyMatcher.findBestConsecutiveMatch`. -/
def findBestConsecutiveMatch (text query : Str) : Option MatchScore :=
  let best := (List.range (text.length + 1 - query.length)).foldl
    (consecFoldStep text query) (0, [])
  if best.2.isEmpty then none else some ⟨best.1, best.2⟩

/-- Embedding of `FuzzyMatcher.scoreMatchSequence`. -/
def scoreMatchSequence (text : Str) (ms : List Nat) : ℚ :=
  (List.range ms.length).foldl (fun sc i =>
    let index := ms.getD i 0
    let sc := sc + (if index == 0 || isSeparator (text.getD (index - 1) dChar) then 50 else 0)
    let sc := sc + (if isCamelCase text index then 30 else 0)
    let sc := sc + (if 0 < i ∧ ms.getD i 0 = ms.getD (i - 1) 0 + 1 then 20 else 0)
    let sc := sc - (index : ℚ) * (1 / 10)
    let sc := sc - (if 0 < i
      then (((ms.getD i 0 : ℤ) - (ms.getD (i - 1) 0 : ℤ) - 1 : ℤ) : ℚ) * 2
      else 0)
    sc) 0

mutual

/-- Embedding of `FuzzyMatcher.findBestSequentialMatch`, fuel-indexed.  The recursion depth
is bounded by the number of query characters left, so fuel
`query.length - queryIndex` is exact and the fuel-exhaustion branch is
unreachable from `findSequentialMatches`. -/
def seqGoF : Nat → Str → Str → Nat → Nat → List Nat → Option (List Nat)
  | fuel, text, query, queryIndex, textIndex, currentMatches =>
      if query.length ≤ queryIndex then some currentMatches
      else if text.length ≤ textIndex then none
      else
        match fuel with
        | 0 => none
        | fm + 1 =>
            ((List.range' textIndex (text.length - textIndex)).foldl
              (seqFoldStep fm text query queryIndex currentMatches) none).map
              (fun p => p.2)
termination_by fuel _ _ _ _ _ => (fuel, 1)

/-- One candidate position `j` of `findBestSequentialMatch`'s inner loop:
recursively match the rest of the query from `j + 1` and keep the highest
scoring complete sequence. -/
def seqFoldStep (fm : Nat) (text query : Str) (queryIndex : Nat)
    (currentMatches : List Nat) (b : Option (ℚ × List Nat)) (j : Nat) :
    Option (ℚ × List Nat) :=
  if text.getD j dChar = query.getD queryIndex dChar then
    match seqGoF fm text query (queryIndex + 1) (j + 1) (currentMatches ++ [j]) with
    | some remainingMatch =>
        let score := scoreMatchSequence text remainingMatch
        match b with
        | none => some (score, remainingMatch)
        | some (bs, bm) =>
            if bs < score then some (score, remainingMatch)
            else some (bs, bm)
    | none => b
  else b
termination_by (fm, 2)

end

/-- Embedding of `FuzzyMatcher.findSequentialMatches`. -/
def findSequentialMatches (text query : Str) : List Nat :=
  (seqGoF query.length text query 0 0 []).getD []

/-- Embedding of `FuzzyMatcher.findFuzzyMatch`. -/
def findFuzzyMatch (text query : Str) : MatchScore :=
  let matchedIndices := findSequentialMatches text query
  if matchedIndices.length ≠ query.length then ⟨0, []⟩
  else
    let score := (List.range matchedIndices.length).foldl (fun sc i =>
      let sc := sc + 5
      if 0 < i then
        sc - (((matchedIndices.getD i 0 : ℤ) - (matchedIndices.getD (i - 1) 0 : ℤ) - 1 : ℤ) : ℚ) * 10
      else sc) 50
    ⟨max 0 score, matchedIndices⟩

/-- Embedding of `FuzzyMatcher.calculateMatch`: three-tier fallback. -/
def calculateMatch (text query : Str) : MatchScore :=
  if query.length = 0 then ⟨0, []⟩
  else if text.length < query.length then ⟨0, []⟩
  else
    match findExactMatch text query with
    | some m => m
    | none =>
        match findBestConsecutiveMatch text query with
        | some m => if 0 < m.score then m else findFuzzyMatch text query
        | none => findFuzzyMatch text query

/-- The comparator of `fuzzyFilter`'s sort, as an ordering relation:
`(a, b) => b.score - a.score || a.result.line - b.result.line` means
`a` precedes `b` when `a` scores higher, or scores are equal and `a`'s line
number is not larger. -/
def fuzzyMatchLe (a b : FuzzyMatch) : Prop :=
  b.score < a.score ∨ (a.score = b.score ∧ a.result.line ≤ b.result.line)

instance : DecidableRel fuzzyMatchLe := fun a b =>
  inferInstanceAs (Decidable (b.score < a.score ∨
    (a.score = b.score ∧ a.result.line ≤ b.result.line)))

instance : IsTotal FuzzyMatch fuzzyMatchLe where
  total a b := by
    rcases lt_trichotomy a.score b.score with h | h | h
    · exact Or.inr (Or.inl h)
    · rcases Nat.le_total a.result.line b.result.line with hl | hl
      · exact Or.inl (Or.inr ⟨h, hl⟩)
      · exact Or.inr (Or.inr ⟨h.symm, hl⟩)
    · exact Or.inl (Or.inl h)

instance : IsTrans FuzzyMatch fuzzyMatchLe where
  trans a b c hab hbc := by
    rcases hab with h1 | ⟨h1, l1⟩ <;> rcases hbc with h2 | ⟨h2, l2⟩
    · exact Or.inl (h2.trans h1)
    · exact Or.inl (h2 ▸ h1)
    · exact Or.inl (h1 ▸ h2)
    · exact Or.inr ⟨h1.trans h2, l1.trans l2⟩

/-- The list built by `fuzzyFilter`'s main loop before sorting. -/
def fuzzyFilterPre (results : List FuzzySearchResult) (query : Str) :
    List FuzzyMatch :=
  let lowercaseQuery := toLowerStr query
  results.filterMap (fun r =>
    let searchText := getSearchableText r
    let m := calculateMatch searchText lowercaseQuery
    if 0 < m.score then some ⟨r, m.score, m.matchedIndices⟩ else none)

/-- Embedding of `FuzzyMatcher.fuzzyFilter`: blank queries pass every result through
unscored, otherwise score, drop non-matches, and stable-sort by the
comparator. -/
def fuzzyFilter (results : List FuzzySearchResult) (query : Str) :
    List FuzzyMatch :=
  if (jsTrim query).isEmpty then results.map (fun r => ⟨r, 0, []⟩)
  else (fuzzyFilterPre results query).insertionSort fuzzyMatchLe

/-!
## Text search service (`SearchService` in `textSearchService.ts`)

A compiled JavaScript regular expression is abstracted by its matching
function on a line: `Nat → Option Nat` gives, for each start position, the
length of the match the regex engine produces there (`none` when the regex
does not match at that position).  `RegExp.prototype.exec` with the global
flag then returns the first position at or after `lastIndex` that matches.
`searchInContent` receives the result of `new RegExp(pattern, flags)` as an
`Option`: `none` models the constructor throwing on a malformed pattern,
which the source catches by falling back to `searchLiteral`.
-/

structure TextSearchResult where
  file : Str
  line : Nat
  column : Nat
  text : Str
  context : List Str
deriving DecidableEq

/-- Embedding of `RegExp.prototype.exec` on one line: first match at or after `start`.
`f` is the per-position matching function of the compiled regex, `n` the
line length (a zero-width match at the end of the line is possible). -/
def execFrom (f : Nat → Option Nat) (n start : Nat) : Option (Nat × Nat) :=
  (List.range' start (n + 1 - start)).findSome?
    (fun i => (f i).map (fun len => (i, len)))

/-- Inner while-loop of `searchInContent` over one line, fuel-indexed:
record each match's (index, length); `lastIndex` advances past the match,
or by one on a zero-width match; after recording, stop once the running
result count reaches 100.  `none` models fuel exhaustion; fuel `n + 2`
always suffices (proved below), mirroring that the JavaScript loop always
terminates. -/
def lineLoopF : Nat → (Nat → Option Nat) → Nat → Nat → Nat → Option (List (Nat × Nat))
  | 0, _, _, _, _ => none
  | fuel + 1, f, n, start, count =>
      match execFrom f n start with
      | none => some []
      | some (i, len) =>
          let nextStart := if len = 0 then i + 1 else i + len
          if 100 ≤ count + 1 then some [(i, len)]
          else (lineLoopF fuel f n nextStart (count + 1)).map (fun rest => (i, len) :: rest)

/-- The per-line scanning loop of `searchInContent` (with sufficient fuel). -/
def lineLoop (f : Nat → Option Nat) (n start count : Nat) : List (Nat × Nat) :=
  (lineLoopF (n + 2) f n start count).getD []

/-- The same loop without the 100-result cap: the full sequence of
leftmost non-overlapping matches of the line. -/
def greedyF : Nat → (Nat → Option Nat) → Nat → Nat → Option (List (Nat × Nat))
  | 0, _, _, _ => none
  | fuel + 1, f, n, start =>
      match execFrom f n start with
      | none => some []
      | some (i, len) =>
          let nextStart := if len = 0 then i + 1 else i + len
          (greedyF fuel f n nextStart).map (fun rest => (i, len) :: rest)

/-- All leftmost non-overlapping matches of a line (cap-free reference). -/
def greedy (f : Nat → Option Nat) (n start : Nat) : List (Nat × Nat) :=
  (greedyF (n + 2) f n start).getD []

/-- Declarative characterisation of a scan of one line from cursor `r`:
every listed pair is a match at or after the cursor, no position between
the cursor and a listed match matches, the cursor advances past each match
(by one for zero-width matches), and nothing matches after the last one. -/
def ScanSpec (f : Nat → Option Nat) (n : Nat) : Nat → List (Nat × Nat) → Prop
  | r, [] => ∀ j, r ≤ j → j ≤ n → f j = none
  | r, (i, len) :: rest =>
      r ≤ i ∧ i ≤ n ∧ f i = some len ∧ (∀ j, r ≤ j → j < i → f j = none) ∧
        ScanSpec f n (if len = 0 then i + 1 else i + len) rest

/-- Embedding of `content.split("\n")`. -/
def splitNl (content : Str) : List Str := splitOnChar '\n' content

/-- Line-by-line loop of `searchInContent`: `count` is the number of results
accumulated so far; after a line, stop if the count has reached 100. -/
def contentGo (rx : Str → Nat → Option Nat) (filePath : Str) :
    List Str → Nat → Nat → List TextSearchResult
  | [], _, _ => []
  | line :: rest, lineIndex, count =>
      let ms := lineLoop (rx line) line.length 0 count
      let rs := ms.map (fun p =>
        ⟨filePath, lineIndex + 1, p.1 + 1, jsTrim line, [jsTrim line]⟩)
      if 100 ≤ count + ms.length then rs
      else rs ++ contentGo rx filePath rest (lineIndex + 1) (count + ms.length)

/-- JavaScript `\W` (non-word character): complement of `[A-Za-z0-9_]`. -/
def isNonWordChar (c : Char) : Bool := !(c.isAlphanum || c == '_')

/-- Whole-word test of `searchLiteral` at a literal match position. -/
def wholeWordOk (searchLine searchPattern : Str) (matchIndex : Nat) : Bool :=
  let okBefore := matchIndex == 0 ||
    isNonWordChar (searchLine.getD (matchIndex - 1) dChar)
  let okAfter := matchIndex + searchPattern.length == searchLine.length ||
    isNonWordChar (searchLine.getD (matchIndex + searchPattern.length) dChar)
  okBefore && okAfter

/-- Inner while-loop of `searchLiteral` over one (case-folded) line,
fuel-indexed.  For the non-empty patterns that can reach the literal
fallback each iteration advances the start index, so the chosen fuel
suffices; `none` models fuel exhaustion. -/
def litLineLoopF : Nat → Bool → Str → Str → Nat → Nat → Option (List Nat)
  | 0, _, _, _, _, _ => none
  | fuel + 1, ww, searchLine, searchPattern, startIndex, count =>
      match jsIndexOfFrom searchLine searchPattern startIndex with
      | none => some []
      | some matchIndex =>
          if ww && !wholeWordOk searchLine searchPattern matchIndex then
            litLineLoopF fuel ww searchLine searchPattern (matchIndex + 1) count
          else if 100 ≤ count + 1 then some [matchIndex]
          else (litLineLoopF fuel ww searchLine searchPattern (matchIndex + 1) (count + 1)).map
            (fun rest => matchIndex :: rest)

/-- Per-line literal scanning loop (with fuel covering every reachable case). -/
def litLineLoop (ww : Bool) (searchLine searchPattern : Str) (start count : Nat) :
    List Nat :=
  (litLineLoopF (searchLine.length + 103) ww searchLine searchPattern start count).getD []

/-- Line-by-line loop of `searchLiteral`. -/
def litContentGo (cs ww : Bool) (searchPattern filePath : Str) :
    List Str → Nat → Nat → List TextSearchResult
  | [], _, _ => []
  | line :: rest, lineIndex, count =>
      let searchLine := if cs then line else toLowerStr line
      let ms := litLineLoop ww searchLine searchPattern 0 count
      let rs := ms.map (fun mi =>
        ⟨filePath, lineIndex + 1, mi + 1, jsTrim line, [jsTrim line]⟩)
      if 100 ≤ count + ms.length then rs
      else rs ++ litContentGo cs ww searchPattern filePath rest (lineIndex + 1) (count + ms.length)

/-- Embedding of `SearchService.searchLiteral`: literal substring scan, case-folding both
the pattern and each line when the search is case-insensitive. -/
def searchLiteralE (cs ww : Bool) (searchTerm filePath content : Str) :
    List TextSearchResult :=
  let searchPattern := if cs then searchTerm else toLowerStr searchTerm
  litContentGo cs ww searchPattern filePath (splitNl content) 0 0

/-- Embedding of `SearchService.searchInContent`.  `rxOpt` is the outcome of compiling the
(whole-word-wrapped, case-flagged) pattern: `none` means `new RegExp` threw,
which the `catch` turns into the literal fallback. -/
def searchInContentE (rxOpt : Option (Str → Nat → Option Nat)) (cs ww : Bool)
    (pattern filePath content : Str) : List TextSearchResult :=
  match rxOpt with
  | some rx => contentGo rx filePath (splitNl content) 0 0
  | none => searchLiteralE cs ww pattern filePath content

/-- How `searchInFile` disposed of the file: scanned, skipped as oversized
(a `console.warn`), or failed with an I/O error (a `console.error`). -/
inductive FileOutcome where
  | scanned
  | skipped
  | errored
deriving DecidableEq

structure FileData where
  size : Nat
  content : Str
deriving DecidableEq

/-- Embedding of `SearchService.searchInFile`: stat the file (`none` models a stat/read
error, caught and logged as an error), skip files larger than
`maxFileSize`, otherwise scan the content and truncate to `maxResults`. -/
def searchInFileE (rxOpt : Option (Str → Nat → Option Nat)) (cs ww : Bool)
    (maxFileSize maxResults : Nat) (pattern filePath : Str)
    (fd : Option FileData) : List TextSearchResult × FileOutcome :=
  match fd with
  | none => ([], .errored)
  | some f =>
      if maxFileSize < f.size then ([], .skipped)
      else ((searchInContentE rxOpt cs ww pattern filePath f.content).take maxResults,
        .scanned)

/-- Embedding of `SearchService.getContextSize`: 60 lines in vertical layout, 10 otherwise. -/
def getContextSizeE (isVerticalLayout : Bool) : Nat :=
  if isVerticalLayout then 60 else 10

/-- Embedding of `SearchService.readContextLines`: slice of the file's lines around the
1-based target line (`Math.max(0, target - size - 1)` coincides with
truncated subtraction); a read failure is caught and yields `[]`. -/
def readContextLinesE (readFile : Str → Option Str) (filePath : Str)
    (targetLine contextSize : Nat) : List Str :=
  match readFile filePath with
  | none => []
  | some content =>
      let lines := splitNl content
      let startLine := targetLine - contextSize - 1
      let endLine := min lines.length (targetLine + contextSize)
      (lines.drop startLine).take (endLine - startLine)

/-- Embedding of `SearchService.loadContextForResult`: return the result unchanged when
its context already holds more than one line, otherwise rebuild it with the
freshly read context. -/
def loadContextForResultE (readFile : Str → Option Str) (isVerticalLayout : Bool)
    (r : TextSearchResult) : TextSearchResult :=
  if 1 < r.context.length then r
  else
    let contextSize := getContextSizeE isVerticalLayout
    { r with context := readContextLinesE readFile r.file r.line contextSize }

/-- The placeholder line `FileSearchService.getFileContext` yields on a read
error. -/
def errPlaceholder : Str := "Error loading file content".toList

/-- Embedding of `FileSearchService.getFileContext`: first `contextSize * 3` lines of the
file, or the single-line placeholder when reading fails. -/
def getFileContextE (readFile : Str → Option Str) (filePath : Str)
    (contextSize : Nat) : List Str :=
  match readFile filePath with
  | none => [errPlaceholder]
  | some content => (splitNl content).take (contextSize * 3)

/-!
## File discovery (`FileSearchService.discoverFiles` / `walkDirectory`)

The filesystem is an inductive tree; `statOk` models whether `fs.stat`
succeeds on the entry and `readable` whether the directory can be listed
(both failures are caught and skipped by the source).  The ignore predicate
(`shouldIgnore` applied to the loaded patterns) is taken as a parameter:
no claim depends on the glob matcher itself.
-/

structure FileCandidate where
  file : Str
  name : Str
  relativePath : Str
  size : Nat
  modified : Nat
  isDirectory : Bool
deriving DecidableEq

inductive FsEntry where
  | file (name : Str) (size modified : Nat) (statOk : Bool)
  | dir (name : Str) (modified : Nat) (statOk readable : Bool)
      (entries : List FsEntry)

/-- Embedding of `path.join` (and, relative to the base, `path.relative`) for one more
component. -/
def joinPath (a b : Str) : Str := if a.isEmpty then b else a ++ '/' :: b

/-- Embedding of `String.prototype.startsWith(".")`. -/
def startsWithDot (name : Str) : Bool :=
  match name with
  | [] => false
  | c :: _ => c == '.'

mutual

/-- One entry of `FileSearchService.walkDirectory`'s loop. -/
def walkEntryE (ign : Str → Bool) (inclH inclD : Bool) (maxDepth : Nat)
    (cur rel : Str) (depth : Nat) : FsEntry → List FileCandidate
  | .file name size modified statOk =>
      let relativePath := joinPath rel name
      if ign relativePath then []
      else if !inclH && startsWithDot name then []
      else if statOk then
        [⟨joinPath cur name, name, relativePath, size, modified, false⟩]
      else []
  | .dir name modified statOk readable entries =>
      let fullPath := joinPath cur name
      let relativePath := joinPath rel name
      if ign relativePath then []
      else if !inclH && startsWithDot name then []
      else if statOk then
        (if inclD then [⟨fullPath, name, relativePath, 0, modified, true⟩] else []) ++
          (if readable then
            walkDirE ign inclH inclD maxDepth fullPath relativePath (depth + 1) entries
          else [])
      else []

/-- Embedding of `FileSearchService.walkDirectory`: stop silently past `maxDepth`,
otherwise process the listed entries in order. -/
def walkDirE (ign : Str → Bool) (inclH inclD : Bool) (maxDepth : Nat)
    (cur rel : Str) (depth : Nat) : List FsEntry → List FileCandidate
  | [] => []
  | e :: es =>
      if maxDepth < depth then []
      else walkEntryE ign inclH inclD maxDepth cur rel depth e ++
        walkDirE ign inclH inclD maxDepth cur rel depth es

end

/-- Collation key of `String.prototype.localeCompare` restricted to ASCII:
primary strength compares the lower-cased strings, and strings equal at
primary strength are ordered by case (lower case first, as in the default
ICU collation). -/
def nameKey (s : Str) : Lex (Str × List Nat) :=
  toLex (toLowerStr s, s.map (fun c => if c.isUpper then 1 else 0))

/-- The comparator `(a, b) => a.name.localeCompare(b.name)` as an ordering
relation on candidates. -/
def candLe (a b : FileCandidate) : Prop := nameKey a.name ≤ nameKey b.name

instance : DecidableRel candLe := fun a b =>
  inferInstanceAs (Decidable (nameKey a.name ≤ nameKey b.name))

instance : IsTotal FileCandidate candLe where
  total a b := le_total (nameKey a.name) (nameKey b.name)

instance : IsTrans FileCandidate candLe where
  trans _ _ _ hab hbc := le_trans hab hbc

/-- Embedding of `FileSearchService.discoverFiles`: walk the tree from the root (depth 0,
empty relative path), then sort by display name.  A failure to read the root
itself is caught and yields `[]` upstream; `rootEntries` are the entries the
root listing produced. -/
def discoverFilesE (ign : Str → Bool) (inclH inclD : Bool) (maxDepth : Nat)
    (rootPath : Str) (rootEntries : List FsEntry) : List FileCandidate :=
  (walkDirE ign inclH inclD maxDepth rootPath [] 0 rootEntries).insertionSort candLe

/-!
## Search panel re-entrancy (`SearchWebviewPanel.handleSearch` in
`textSearchWebviewPanel.ts`)

`handleSearch` runs on the single-threaded event loop: the part before
`await this.onSearch(query)` (recording `currentSearchQuery`) runs when the
query is issued, and the assignment `this.filteredResults = searchResults`
runs when that scan's promise settles (`none` models a rejection, which the
`catch` turns into `[]`).  A panel history is therefore a sequence of these
atomic events, applied in order.
-/

structure PanelState where
  currentSearchQuery : Str
  filteredResults : List TextSearchResult
deriving DecidableEq

inductive PanelEvent where
  | issue (query : Str)
  | complete (query : Str) (outcome : Option (List TextSearchResult))
deriving DecidableEq

/-- One event of `handleSearch` as it executes on the event loop. -/
def panelStep (s : PanelState) : PanelEvent → PanelState
  | .issue q => { s with currentSearchQuery := q }
  | .complete _ outcome =>
      match outcome with
      | some rs => { s with filteredResults := rs }
      | none => { s with filteredResults := [] }

/-- Run a sequence of panel events. -/
def panelRun (s : PanelState) (events : List PanelEvent) : PanelState :=
  events.foldl panelStep s

/-- The result lists delivered by scan completions, in arrival order. -/
def completedPayloads (events : List PanelEvent) : List (List TextSearchResult) :=
  events.filterMap (fun e =>
    match e with
    | .complete _ outcome => some (outcome.getD [])
    | _ => none)

/-- A compiled regular expression for a literal pattern: it matches exactly
the pattern's length wherever the pattern occurs (used to instantiate the
abstract regex parameter on concrete scenarios). -/
def litRx (pat : Str) : Str → Nat → Option Nat := fun line i =>
  if (line.drop i).take pat.length = pat then some pat.length else none

/-- The matched-indices contract of the fuzzy ranker: strictly increasing
indices into the searchable text `s`, each matching the corresponding query
character up to case. -/
def IndicesSpec (s query : Str) (idxs : List Nat) : Prop :=
  idxs.Chain' (fun a b => a < b) ∧
  ∀ k, k < idxs.length →
    k < query.length ∧ idxs.getD k 0 < s.length ∧
      (s.getD (idxs.getD k 0) dChar).toLower = (query.getD k dChar).toLower

/-- Concrete inputs used by witnesses and counterexamples below. -/
def demoQ : Str := ("x").toList

def demoS : Str := ("f x").toList

def demoR5 : FuzzySearchResult := ⟨("f").toList, 5, 1, ("x").toList⟩

def demoR3 : FuzzySearchResult := ⟨("f").toList, 3, 1, ("x").toList⟩

def demoR1 : FuzzySearchResult := ⟨("f").toList, 1, 1, ("x").toList⟩

/-!
## Theorems

General helper lemmas first, then one theorem per claim (with witnesses and
counterexamples where required).
-/

theorem charToNat_ofNat {n : Nat} (h2 : n < 55296) : (Char.ofNat n).toNat = n := by
  rw [Char.ofNat, dif_pos (Or.inl h2)]
  rw [Char.ofNatAux, Char.toNat]
  simp [UInt32.ofNat', UInt32.toNat, BitVec.toNat_ofNatLt]

theorem toLower_notUpperRange (c : Char) :
    ¬(c.toLower.toNat ≥ 65 ∧ c.toLower.toNat ≤ 90) := by
  rw [Char.toLower]
  by_cases h : c.toNat ≥ 65 ∧ c.toNat ≤ 90
  · rw [if_pos h, charToNat_ofNat (by omega)]; omega
  · rw [if_neg h]; exact h

theorem toLower_toLower (c : Char) : c.toLower.toLower = c.toLower := by
  conv_lhs => rw [Char.toLower]
  rw [if_neg (toLower_notUpperRange c)]

/-- C10.  `loadContextForResult` returns a result whose `file`, `line`,
`column` and `text` fields equal the input's; only the `context` field can
differ (and, being pure, it leaves its argument untouched). -/
theorem loadContext_frame :
    ∀ (readFile : Str → Option Str) (v : Bool) (r : TextSearchResult),
      (loadContextForResultE readFile v r).file = r.file ∧
      (loadContextForResultE readFile v r).line = r.line ∧
      (loadContextForResultE readFile v r).column = r.column ∧
      (loadContextForResultE readFile v r).text = r.text := by
  intro readFile v r
  unfold loadContextForResultE
  split
  · exact ⟨rfl, rfl, rfl, rfl⟩
  · exact ⟨rfl, rfl, rfl, rfl⟩

/-- C9 counterexample.  When the file cannot be read, the text-search
context loader `readContextLines` yields the empty list — not a single-line
explanatory placeholder as the claim states. -/
theorem readContextLines_failure_cex :
    readContextLinesE (fun _ => none) [] 1 10 = [] ∧
      (readContextLinesE (fun _ => none) [] 1 10).length ≠ 1 := by
  exact ⟨rfl, by decide⟩

/-- C9 (amended).  On a read failure neither context loader throws: the
file-search loader `getFileContext` yields the single-line placeholder
"Error loading file content", while the text-search loader
`readContextLines` yields the empty list. -/
theorem contextLoad_failure_behavior :
    ∀ (readFile : Str → Option Str) (fp : Str) (t csz csz2 : Nat),
      readFile fp = none →
      readContextLinesE readFile fp t csz = [] ∧
        getFileContextE readFile fp csz2 = [errPlaceholder] := by
  intro readFile fp t csz csz2 h
  unfold readContextLinesE getFileContextE
  rw [h]
  exact ⟨rfl, rfl⟩

theorem contextLoad_failure_behavior_witness :
    ((fun _ => none) ([] : Str) = (none : Option Str)) ∧
      (readContextLinesE (fun _ => none) [] 2 5 = [] ∧
        getFileContextE (fun _ => none) [] 5 = [errPlaceholder]) :=
  ⟨rfl, contextLoad_failure_behavior (fun _ => none) [] 2 5 5 rfl⟩

/-- C8 counterexample.  A result whose loaded context has a single line (the
file has one line) is re-fetched by a second `loadContext` call: with the
file changed in between, the two calls yield different lines, refuting both
the no-re-fetch and the same-lines-both-times parts of the claim. -/
theorem loadContext_refetch_cex :
    (loadContextForResultE (fun _ => some (("B").toList)) false
        (loadContextForResultE (fun _ => some (("A").toList)) false
          ⟨("f").toList, 1, 1, ("t").toList, [("t").toList]⟩)).context =
      [("B").toList] ∧
    (loadContextForResultE (fun _ => some (("A").toList)) false
        ⟨("f").toList, 1, 1, ("t").toList, [("t").toList]⟩).context =
      [("A").toList] ∧
    ("A").toList ≠ ("B").toList := by decide

/-- C8 (amended).  Once a result's context holds more than one line,
`loadContextForResult` returns it unchanged (no re-fetch), so repeated calls
yield the same lines; a context of at most one line is re-fetched on every
call and can change when the underlying file changes. -/
theorem loadContext_idempotent_when_multiline :
    ∀ (readFile : Str → Option Str) (v : Bool) (r : TextSearchResult),
      1 < r.context.length → loadContextForResultE readFile v r = r := by
  intro readFile v r h
  unfold loadContextForResultE
  rw [if_pos h]

theorem loadContext_idempotent_when_multiline_witness :
    1 < ([("x").toList, ("y").toList] : List Str).length ∧
      loadContextForResultE (fun _ => none) false
          ⟨("f").toList, 1, 1, ("t").toList, [("x").toList, ("y").toList]⟩ =
        ⟨("f").toList, 1, 1, ("t").toList, [("x").toList, ("y").toList]⟩ :=
  ⟨by decide, loadContext_idempotent_when_multiline (fun _ => none) false
    ⟨("f").toList, 1, 1, ("t").toList, [("x").toList, ("y").toList]⟩ (by decide)⟩

/-- C6.  A file whose size is exactly `maxFileSize` is scanned; one byte
over, it yields no results at all (never a partial scan) with outcome
`skipped`, which is distinct from the error outcome. -/
theorem maxFileSize_boundary :
    ∀ (rxOpt : Option (Str → Nat → Option Nat)) (cs ww : Bool)
      (mfs mr : Nat) (pattern filePath : Str) (f : FileData),
      (f.size = mfs →
        searchInFileE rxOpt cs ww mfs mr pattern filePath (some f) =
          ((searchInContentE rxOpt cs ww pattern filePath f.content).take mr,
            FileOutcome.scanned)) ∧
      (f.size = mfs + 1 →
        searchInFileE rxOpt cs ww mfs mr pattern filePath (some f) =
          ([], FileOutcome.skipped) ∧
          FileOutcome.skipped ≠ FileOutcome.errored) := by
  intro rxOpt cs ww mfs mr pattern filePath f
  constructor
  · intro h
    simp only [searchInFileE]
    rw [if_neg (by omega : ¬mfs < f.size)]
  · intro h
    refine ⟨?_, by simp⟩
    simp only [searchInFileE]
    rw [if_pos (by omega : mfs < f.size)]

theorem maxFileSize_boundary_witness :
    ((⟨5, []⟩ : FileData).size = 5 ∧
      searchInFileE none true false 5 1000 [] [] (some ⟨5, []⟩) =
        ((searchInContentE none true false [] [] ([] : Str)).take 1000,
          FileOutcome.scanned)) ∧
    ((⟨6, []⟩ : FileData).size = 5 + 1 ∧
      searchInFileE none true false 5 1000 [] [] (some ⟨6, []⟩) =
        ([], FileOutcome.skipped) ∧
      FileOutcome.skipped ≠ FileOutcome.errored) :=
  ⟨⟨rfl, (maxFileSize_boundary none true false 5 1000 [] [] ⟨5, []⟩).1 rfl⟩,
   ⟨rfl, (maxFileSize_boundary none true false 5 1000 [] [] ⟨6, []⟩).2 rfl⟩⟩

/-- C5.  When pattern compilation fails (`rxOpt = none`, e.g. for the
malformed pattern `[`), `searchInContent` is exactly the literal substring
scan with the same case-sensitivity rule — total, so no error reaches the
caller, and of the same result shape; in particular the pattern `[` against
the content "a [ b" yields exactly one match at line 1, column 3. -/
theorem invalid_regex_literal_fallback :
    (∀ (cs ww : Bool) (pattern filePath content : Str),
      searchInContentE none cs ww pattern filePath content =
        searchLiteralE cs ww pattern filePath content) ∧
    (searchInContentE none false false (("[").toList) (("f").toList)
        (("a [ b").toList)).map (fun r => (r.line, r.column)) = [(1, 3)] := by
  exact ⟨fun cs ww pattern filePath content => rfl, by decide⟩

/-- C1 counterexample.  Queries "ab" then "abc" are issued before the first
completes; "abc"'s scan completes first, then "ab"'s stale completion
arrives and overwrites it — the caller is left observing the superseded
query's ResultSet, refuting the claim that only "abc"'s is ever observed. -/
theorem staleScan_overwrite_cex :
    (panelRun ⟨[], []⟩
        [PanelEvent.issue (("ab").toList),
         PanelEvent.issue (("abc").toList),
         PanelEvent.complete (("abc").toList) (some [⟨("b").toList, 2, 1, [], []⟩]),
         PanelEvent.complete (("ab").toList) (some [⟨("a").toList, 1, 1, [], []⟩])]
      ).filteredResults = [⟨("a").toList, 1, 1, [], []⟩] ∧
    [(⟨("a").toList, 1, 1, [], []⟩ : TextSearchResult)] ≠
      [⟨("b").toList, 2, 1, [], []⟩] := by decide

/-- C1 (amended).  `handleSearch` has no staleness check: every completed
scan overwrites `filteredResults` in completion order, so the observed
ResultSet after any sequence of events is the payload of the most recently
completed scan (the initial one if none completed) — which, for overlapping
queries, can be the superseded query's results. -/
theorem panel_last_completion_wins :
    ∀ (s : PanelState) (events : List PanelEvent),
      (panelRun s events).filteredResults =
        (completedPayloads events).getLastD s.filteredResults := by
  intro s events
  induction events generalizing s with
  | nil => rfl
  | cons e tl ih =>
      cases e with
      | issue q =>
          have h1 : (panelRun s (PanelEvent.issue q :: tl)).filteredResults =
              (panelRun (panelStep s (PanelEvent.issue q)) tl).filteredResults := rfl
          rw [h1, ih]
          rfl
      | complete q outcome =>
          have h1 : (panelRun s (PanelEvent.complete q outcome :: tl)).filteredResults =
              (panelRun (panelStep s (PanelEvent.complete q outcome)) tl).filteredResults := rfl
          rw [h1, ih]
          have h2 : (panelStep s (PanelEvent.complete q outcome)).filteredResults =
              outcome.getD [] := by
            cases outcome <;> rfl
          have h3 : completedPayloads (PanelEvent.complete q outcome :: tl) =
              outcome.getD [] :: completedPayloads tl := by
            simp [completedPayloads]
          rw [h2, h3, List.getLastD_cons]

/-- C7.  For every traversal (any tree, ignore predicate, flags and depth
limit), the Candidate list produced by `discoverFiles` is sorted by display
name, case-insensitively, in ascending (lexicographic) order. -/
theorem discoverFiles_sorted :
    ∀ (ign : Str → Bool) (inclH inclD : Bool) (maxDepth : Nat)
      (rootPath : Str) (rootEntries : List FsEntry),
      (discoverFilesE ign inclH inclD maxDepth rootPath rootEntries).Pairwise
        (fun a b => toLowerStr a.name ≤ toLowerStr b.name) := by
  intro ign inclH inclD maxDepth rootPath rootEntries
  have hs :=
    List.sorted_insertionSort candLe
      (walkDirE ign inclH inclD maxDepth rootPath [] 0 rootEntries)
  refine hs.imp ?_
  intro a b hab
  unfold candLe nameKey at hab
  rcases (Prod.Lex.le_iff _ _).1 hab with h | ⟨h, _⟩
  · exact le_of_lt h
  · exact le_of_eq h

theorem findSome?_range'_some {β : Type} (g : Nat → Option β) :
    ∀ (len s : Nat) (r : β), (List.range' s len).findSome? g = some r →
      ∃ i, s ≤ i ∧ i < s + len ∧ g i = some r ∧ ∀ j, s ≤ j → j < i → g j = none := by
  intro len
  induction len with
  | zero => intro s r h; simp at h
  | succ m ih =>
      intro s r h
      rw [List.range'_succ, List.findSome?_cons] at h
      cases hg : g s with
      | some v =>
          rw [hg] at h
          have h2 : some v = some r := h
          refine ⟨s, le_refl s, by omega, ?_, fun j hj1 hj2 => by omega⟩
          rw [hg]; exact h2
      | none =>
          rw [hg] at h
          have h2 : (List.range' (s + 1) m).findSome? g = some r := h
          obtain ⟨i, hi1, hi2, hi3, hi4⟩ := ih (s + 1) r h2
          refine ⟨i, by omega, by omega, hi3, fun j hj1 hj2 => ?_⟩
          rcases Nat.eq_or_lt_of_le hj1 with heq | hlt
          · rw [← heq]; exact hg
          · exact hi4 j hlt hj2

theorem findSome?_range'_none {β : Type} (g : Nat → Option β) :
    ∀ (len s : Nat), (List.range' s len).findSome? g = none →
      ∀ j, s ≤ j → j < s + len → g j = none := by
  intro len
  induction len with
  | zero => intro s _ j hj1 hj2; omega
  | succ m ih =>
      intro s h j hj1 hj2
      rw [List.range'_succ, List.findSome?_cons] at h
      cases hg : g s with
      | some v =>
          rw [hg] at h
          have h2 : some v = none := h
          exact absurd h2 (by simp)
      | none =>
          rw [hg] at h
          have h2 : (List.range' (s + 1) m).findSome? g = none := h
          rcases Nat.eq_or_lt_of_le hj1 with heq | hlt
          · rw [← heq]; exact hg
          · exact ih (s + 1) h2 j hlt (by omega)

theorem execFrom_some {f : Nat → Option Nat} {n start i len : Nat}
    (h : execFrom f n start = some (i, len)) :
    start ≤ i ∧ i ≤ n ∧ f i = some len ∧ ∀ j, start ≤ j → j < i → f j = none := by
  unfold execFrom at h
  obtain ⟨i0, h1, h2, h3, h4⟩ := findSome?_range'_some _ _ _ _ h
  cases hf : f i0 with
  | none => rw [hf] at h3; exact absurd h3 (by simp)
  | some l0 =>
      rw [hf] at h3
      simp only [Option.map_some'] at h3
      have hinj := Option.some.inj h3
      have hii : i0 = i := congrArg Prod.fst hinj
      have hll : l0 = len := congrArg Prod.snd hinj
      subst hii; subst hll
      refine ⟨h1, by omega, hf, fun j hj1 hj2 => ?_⟩
      have hj := h4 j hj1 hj2
      cases hfj : f j with
      | none => rfl
      | some l => rw [hfj] at hj; exact absurd hj (by simp)

theorem execFrom_none {f : Nat → Option Nat} {n start : Nat}
    (h : execFrom f n start = none) :
    ∀ j, start ≤ j → j ≤ n → f j = none := by
  intro j hj1 hj2
  have hj := findSome?_range'_none
    (fun i => (f i).map (fun len => (i, len))) _ _ h j hj1 (by omega)
  cases hfj : f j with
  | none => rfl
  | some l =>
      have hj2 : (f j).map (fun len => (j, len)) = none := hj
      rw [hfj] at hj2
      exact absurd hj2 (by simp)

theorem greedyF_spec (f : Nat → Option Nat) (n : Nat) :
    ∀ (fuel start : Nat), n + 2 - start ≤ fuel → 1 ≤ fuel →
      ∃ l, greedyF fuel f n start = some l ∧ ScanSpec f n start l := by
  intro fuel
  induction fuel with
  | zero => intro start _ h2; omega
  | succ fm ih =>
      intro start h1 _
      cases hexec : execFrom f n start with
      | none =>
          refine ⟨[], by simp [greedyF, hexec], ?_⟩
          exact fun j hj1 hj2 => execFrom_none hexec j hj1 hj2
      | some p =>
          obtain ⟨i, len⟩ := p
          obtain ⟨hsi, hin, hfi, hgap⟩ := execFrom_some hexec
          have hnext1 : start < (if len = 0 then i + 1 else i + len) := by
            by_cases hl : len = 0 <;> simp [hl] <;> omega
          obtain ⟨rest, hr1, hr2⟩ :=
            ih (if len = 0 then i + 1 else i + len) (by omega) (by omega)
          refine ⟨(i, len) :: rest, ?_, ?_⟩
          · simp [greedyF, hexec, hr1]
          · exact ⟨hsi, hin, hfi, hgap, hr2⟩

theorem lineLoopF_take (f : Nat → Option Nat) (n : Nat) :
    ∀ (fuel start count : Nat), n + 2 - start ≤ fuel → 1 ≤ fuel → count < 100 →
      lineLoopF fuel f n start count =
        some (((greedyF fuel f n start).getD []).take (100 - count)) := by
  intro fuel
  induction fuel with
  | zero => intro start count _ h2; omega
  | succ fm ih =>
      intro start count h1 _ h3
      cases hexec : execFrom f n start with
      | none => simp [lineLoopF, greedyF, hexec]
      | some p =>
          obtain ⟨i, len⟩ := p
          obtain ⟨hsi, hin, -, -⟩ := execFrom_some hexec
          have hnext1 : start < (if len = 0 then i + 1 else i + len) := by
            by_cases hl : len = 0 <;> simp [hl] <;> omega
          obtain ⟨rest, hr1, -⟩ :=
            greedyF_spec f n fm (if len = 0 then i + 1 else i + len) (by omega) (by omega)
          by_cases hc : 100 ≤ count + 1
          · have h100 : 100 - count = 1 := by omega
            simp [lineLoopF, greedyF, hexec, hr1, hc, h100]
          · have h4 : count + 1 < 100 := by omega
            have hih := ih (if len = 0 then i + 1 else i + len) (count + 1)
              (by omega) (by omega) h4
            simp only [lineLoopF, greedyF, hexec, hih, hr1, if_neg hc, Option.map_some',
              Option.getD_some]
            have h100 : 100 - count = (100 - (count + 1)) + 1 := by omega
            rw [h100, List.take_succ_cons]

/-- C3 (amended).  For any compiled pattern (any per-position matcher `f`)
and any line, the per-line loop entered with `count` results already
recorded produces exactly the leftmost non-overlapping matches of the line
— sound and complete in the sense of `ScanSpec`, which also forces the
cursor to advance by one on a zero-width match — truncated to the file-wide
100-result cap; and the loop always terminates (fuel `n + 2` completes). -/
theorem lineScanner_cap_and_termination :
    ∀ (f : Nat → Option Nat) (n start count : Nat), count < 100 →
      ScanSpec f n start (greedy f n start) ∧
      lineLoop f n start count = (greedy f n start).take (100 - count) ∧
      lineLoopF (n + 2) f n start count = some (lineLoop f n start count) := by
  intro f n start count hc
  obtain ⟨l, hl1, hl2⟩ := greedyF_spec f n (n + 2) start (by omega) (by omega)
  have hg : greedy f n start = l := by unfold greedy; rw [hl1]; rfl
  have hline := lineLoopF_take f n (n + 2) start count (by omega) (by omega) hc
  have hlv : lineLoop f n start count = l.take (100 - count) := by
    unfold lineLoop; rw [hline, hl1]; rfl
  refine ⟨hg ▸ hl2, ?_, ?_⟩
  · rw [hlv, hg]
  · rw [hline, hlv, hl1]; rfl

theorem lineScanner_cap_and_termination_witness :
    (0 : Nat) < 100 ∧
      (ScanSpec (litRx (("a").toList) (("aba").toList)) 3 0
          (greedy (litRx (("a").toList) (("aba").toList)) 3 0) ∧
        lineLoop (litRx (("a").toList) (("aba").toList)) 3 0 0 =
          (greedy (litRx (("a").toList) (("aba").toList)) 3 0).take (100 - 0) ∧
        lineLoopF (3 + 2) (litRx (("a").toList) (("aba").toList)) 3 0 0 =
          some (lineLoop (litRx (("a").toList) (("aba").toList)) 3 0 0)) :=
  ⟨by decide,
    lineScanner_cap_and_termination (litRx (("a").toList) (("aba").toList)) 3 0 0
      (by decide)⟩

/-- C3 counterexample.  A single line of 101 letters `a` scanned for the
pattern `a`: the scanner stops at the file-wide 100-result cap, so the match
at index 100 (column 101) of that line is never reported — the scanner does
not find *all* non-overlapping matches of the line. -/
theorem lineScanner_cap_cex :
    (searchInContentE (some (litRx [dChar])) false false [dChar] []
        (List.replicate 101 dChar)).length = 100 ∧
    litRx [dChar] (List.replicate 101 dChar) 100 = some 1 ∧
    ∀ r ∈ searchInContentE (some (litRx [dChar])) false false [dChar] []
        (List.replicate 101 dChar), r.column ≠ 101 := by decide


theorem demo_calcMatch_eval :
    calculateMatch demoS demoQ =
      ⟨1000 + 16 * (demoQ.length : ℚ) + getPositionBonus 2 demoS.length,
        (List.range demoQ.length).map (fun k => 2 + k)⟩ := by
  have hidx : jsIndexOf demoS demoQ = some 2 := by decide
  have hex : findExactMatch demoS demoQ =
      some ⟨1000 + 16 * (demoQ.length : ℚ) + getPositionBonus 2 demoS.length,
        (List.range demoQ.length).map (fun k => 2 + k)⟩ := by
    rw [findExactMatch, hidx]
  simp only [calculateMatch]
  rw [if_neg (by decide : ¬demoQ.length = 0),
    if_neg (by decide : ¬demoS.length < demoQ.length), hex]

theorem demo_score_pos :
    0 < 1000 + 16 * (demoQ.length : ℚ) + getPositionBonus 2 demoS.length := by
  have h1 : (0 : ℚ) ≤ getPositionBonus 2 demoS.length := by
    unfold getPositionBonus; exact le_max_left 0 _
  have h2 : (0 : ℚ) ≤ (demoQ.length : ℚ) := Nat.cast_nonneg _
  linarith

theorem fuzzyFilter_demo_eval :
    fuzzyFilter [demoR5, demoR3] demoQ =
      [⟨demoR3, 1000 + 16 * (demoQ.length : ℚ) + getPositionBonus 2 demoS.length,
          (List.range demoQ.length).map (fun k => 2 + k)⟩,
        ⟨demoR5, 1000 + 16 * (demoQ.length : ℚ) + getPositionBonus 2 demoS.length,
          (List.range demoQ.length).map (fun k => 2 + k)⟩] := by
  have hG5 : getSearchableText demoR5 = demoS := by decide
  have hG3 : getSearchableText demoR3 = demoS := by decide
  have hLow : toLowerStr demoQ = demoQ := by decide
  unfold fuzzyFilter
  rw [if_neg (by decide : ¬((jsTrim demoQ).isEmpty = true))]
  unfold fuzzyFilterPre
  simp only [List.filterMap_cons, List.filterMap_nil]
  rw [hG5, hG3, hLow, demo_calcMatch_eval]
  rw [if_pos demo_score_pos]
  rw [if_pos demo_score_pos]
  have hnot : ¬ fuzzyMatchLe
      ⟨demoR5, 1000 + 16 * (demoQ.length : ℚ) + getPositionBonus 2 demoS.length,
        (List.range demoQ.length).map (fun k => 2 + k)⟩
      ⟨demoR3, 1000 + 16 * (demoQ.length : ℚ) + getPositionBonus 2 demoS.length,
        (List.range demoQ.length).map (fun k => 2 + k)⟩ := by
    rintro (h | ⟨h1, h2⟩)
    · exact lt_irrefl _ h
    · exact absurd h2 (by decide)
  simp only [List.insertionSort, List.orderedInsert]
  rw [if_neg hnot]

/-- C4 counterexample.  Two candidates with identical searchable text (hence
equal scores) arrive in input order line 5 then line 3, but the ranker
outputs line 3 first: the comparator breaks score ties by ascending line
number, not by original candidate order as the claim states. -/
theorem fuzzyFilter_tie_by_line_cex :
    (fuzzyFilter [demoR5, demoR3] demoQ).map (fun m => m.result.line) = [3, 5] ∧
    ((fuzzyFilter [demoR5, demoR3] demoQ).getD 0 ⟨demoR1, 0, []⟩).score =
      ((fuzzyFilter [demoR5, demoR3] demoQ).getD 1 ⟨demoR1, 0, []⟩).score ∧
    [demoR5, demoR3].map (fun r => r.line) = [5, 3] := by
  refine ⟨?_, ?_, by decide⟩
  · rw [fuzzyFilter_demo_eval]; rfl
  · rw [fuzzyFilter_demo_eval]; rfl

/-- C4 (amended).  For every candidate list and every query that is
non-blank after trimming, the ranker's output is sorted descending by
score, candidates with equal scores appear in ascending order of their line
number, and only among results with equal score *and* equal line number is
the original input order preserved (the sort is stable). -/
theorem fuzzyFilter_sort_amended :
    ∀ (results : List FuzzySearchResult) (query : Str), jsTrim query ≠ [] →
      (fuzzyFilter results query).Pairwise (fun a b =>
        b.score < a.score ∨ (a.score = b.score ∧ a.result.line ≤ b.result.line)) ∧
      (∀ a b : FuzzyMatch, a.score = b.score → a.result.line = b.result.line →
        List.Sublist [a, b] (fuzzyFilterPre results query) →
        List.Sublist [a, b] (fuzzyFilter results query)) := by
  intro results query hq
  have hne : (jsTrim query).isEmpty = false := by
    cases h : jsTrim query with
    | nil => exact absurd h hq
    | cons a l => rfl
  unfold fuzzyFilter
  rw [if_neg (by rw [hne]; exact Bool.false_ne_true)]
  constructor
  · exact List.sorted_insertionSort fuzzyMatchLe _
  · intro a b hs hl hsub
    exact List.pair_sublist_insertionSort (Or.inr ⟨hs, le_of_eq hl⟩) hsub

theorem fuzzyFilter_sort_amended_witness :
    jsTrim demoQ ≠ [] ∧
      ((fuzzyFilter [demoR5, demoR3] demoQ).Pairwise (fun a b =>
          b.score < a.score ∨ (a.score = b.score ∧ a.result.line ≤ b.result.line)) ∧
        (∀ a b : FuzzyMatch, a.score = b.score → a.result.line = b.result.line →
          List.Sublist [a, b] (fuzzyFilterPre [demoR5, demoR3] demoQ) →
          List.Sublist [a, b] (fuzzyFilter [demoR5, demoR3] demoQ))) :=
  ⟨by decide, fuzzyFilter_sort_amended [demoR5, demoR3] demoQ (by decide)⟩

theorem jsIndexOf_spec {text query : Str} {i : Nat} (h : jsIndexOf text query = some i) :
    (text.drop i).take query.length = query ∧ i + query.length ≤ text.length := by
  unfold jsIndexOf jsIndexOfFrom at h
  simp only [Nat.zero_min] at h
  have hp := List.find?_some h
  have hmem := List.mem_of_find?_eq_some h
  have heq : (text.drop i).take query.length = query := of_decide_eq_true hp
  refine ⟨heq, ?_⟩
  have hlen := congrArg List.length heq
  simp only [List.length_take, List.length_drop] at hlen
  rw [List.mem_range'] at hmem
  obtain ⟨k, hk1, hk2⟩ := hmem
  have h1 : i ≤ text.length := by omega
  have h2 : query.length ≤ text.length - i := by omega
  omega

theorem findExactMatch_spec {text query : Str} {m : MatchScore}
    (h : findExactMatch text query = some m) :
    IndicesSpec text query m.matchedIndices := by
  unfold findExactMatch at h
  cases hidx : jsIndexOf text query with
  | none => rw [hidx] at h; exact absurd h (by simp)
  | some i =>
      rw [hidx] at h
      have hm := (Option.some.inj h).symm
      subst hm
      obtain ⟨heq, hbound⟩ := jsIndexOf_spec hidx
      constructor
      · have hp := (List.pairwise_lt_range query.length).map (fun k => i + k)
          (fun a b hab => by show i + a < i + b; omega)
        exact hp.chain'
      · intro k hk
        rw [List.length_map, List.length_range] at hk
        have hgetD : ((List.range query.length).map (fun k => i + k)).getD k 0 = i + k := by
          rw [List.getD_eq_getD_get?, List.get?_eq_getElem?, List.getElem?_map,
            List.getElem?_range hk]
          rfl
        refine ⟨hk, ?_, ?_⟩
        · rw [hgetD]; omega
        · rw [hgetD]
          have hchar : text.getD (i + k) dChar = query.getD k dChar := by
            conv_rhs => rw [← heq]
            rw [List.getD_eq_getD_get?, List.getD_eq_getD_get?,
              List.get?_eq_getElem?, List.get?_eq_getElem?,
              List.getElem?_take, if_pos hk, List.getElem?_drop]
          rw [hchar]

theorem toLowerStr_getD (q : Str) (k : Nat) :
    (toLowerStr q).getD k dChar = (q.getD k dChar).toLower := by
  have hd : dChar = Char.toLower dChar := by decide
  rw [toLowerStr]
  conv_lhs => rw [hd]
  apply List.getD_map

theorem IndicesSpec_of_lower (s q : Str) (idxs : List Nat)
    (h : IndicesSpec s (toLowerStr q) idxs) : IndicesSpec s q idxs := by
  obtain ⟨h1, h2⟩ := h
  refine ⟨h1, fun k hk => ?_⟩
  obtain ⟨hk1, hk2, hk3⟩ := h2 k hk
  rw [toLowerStr, List.length_map] at hk1
  refine ⟨hk1, hk2, ?_⟩
  rw [toLowerStr_getD, toLower_toLower] at hk3
  exact hk3

theorem consecGoF_spec :
    ∀ (fuel : Nat) (text query : Str) (cp qp cs mc : Nat) (acc : List Nat),
      acc.length = qp →
      acc.Chain' (fun a b => a < b) →
      (∀ x ∈ acc, x < cp) →
      (∀ k, k < qp → k < query.length ∧ acc.getD k 0 < text.length ∧
        (text.getD (acc.getD k 0) dChar).toLower = (query.getD k dChar).toLower) →
      (consecGoF fuel text query cp qp cs mc acc).1.length =
          (consecGoF fuel text query cp qp cs mc acc).2.1 ∧
      (consecGoF fuel text query cp qp cs mc acc).1.Chain' (fun a b => a < b) ∧
      (∀ k, k < (consecGoF fuel text query cp qp cs mc acc).2.1 →
        k < query.length ∧
        (consecGoF fuel text query cp qp cs mc acc).1.getD k 0 < text.length ∧
        ((text.getD ((consecGoF fuel text query cp qp cs mc acc).1.getD k 0) dChar).toLower =
          (query.getD k dChar).toLower)) := by
  intro fuel
  induction fuel with
  | zero => intro text query cp qp cs mc acc h1 h2 h3 h4; exact ⟨h1, h2, h4⟩
  | succ fm ih =>
      intro text query cp qp cs mc acc h1 h2 h3 h4
      show (consecGoF (fm + 1) text query cp qp cs mc acc).1.length = _ ∧ _
      rw [consecGoF]
      by_cases hcond : cp < text.length ∧ qp < query.length
      · rw [if_pos hcond]
        by_cases hchar :
            (text.getD cp dChar).toLower = (query.getD qp dChar).toLower
        · rw [if_pos hchar]
          refine ih text query (cp + 1) (qp + 1) (cs + 1)
            (max mc (cs + 1)) (acc ++ [cp]) ?_ ?_ ?_ ?_
          · rw [List.length_append, h1]; rfl
          · rw [List.chain'_append]
            refine ⟨h2, List.chain'_singleton cp, ?_⟩
            intro x hx y hy
            have hxm : x ∈ acc := List.mem_of_getLast?_eq_some hx
            have hyc : y = cp := by
              cases hy
              rfl
            rw [hyc]
            exact h3 x hxm
          · intro x hx
            rcases List.mem_append.1 hx with hxa | hxc
            · exact Nat.lt_succ_of_lt (h3 x hxa)
            · have : x = cp := by
                cases hxc with
                | head => rfl
                | tail _ hcontra => cases hcontra
              omega
          · intro k hk
            rcases Nat.lt_or_ge k qp with hlt | hge
            · have hgd : (acc ++ [cp]).getD k 0 = acc.getD k 0 :=
                List.getD_append _ _ _ _ (by omega)
              obtain ⟨hk1, hk2, hk3⟩ := h4 k hlt
              exact ⟨by omega, by rw [hgd]; exact hk2, by rw [hgd]; exact hk3⟩
            · have hkeq : k = qp := by omega
              have hgd : (acc ++ [cp]).getD k 0 = cp := by
                rw [hkeq, ← h1, List.getD_append_right _ _ _ _ (le_refl _)]
                simp
              exact ⟨by omega, by rw [hgd]; exact hcond.1, by rw [hgd, hkeq]; exact hchar⟩
        · rw [if_neg hchar]
          exact ih text query (cp + 1) qp 0 mc acc h1 h2
            (fun x hx => Nat.lt_succ_of_lt (h3 x hx)) h4
      · rw [if_neg hcond]
        exact ⟨h1, h2, h4⟩

theorem consecGo_spec (text query : Str) (start : Nat)
    (_hq : (consecGo text query start).2.1 = query.length) :
    IndicesSpec text query (consecGo text query start).1 := by
  have h := consecGoF_spec (text.length - start) text query start 0 0 0 []
    rfl List.chain'_nil (fun x hx => absurd hx (List.not_mem_nil x))
    (fun k hk => absurd hk (Nat.not_lt_zero k))
  obtain ⟨h1, h2, h3⟩ := h
  refine ⟨h2, fun k hk => ?_⟩
  have hk2 : k < (consecGo text query start).2.1 := by
    unfold consecGo
    rw [← h1]
    exact hk
  obtain ⟨ha, hb, hc⟩ := h3 k hk2
  exact ⟨ha, hb, hc⟩

theorem findBestConsecutiveMatch_spec {text query : Str} {m : MatchScore}
    (h : findBestConsecutiveMatch text query = some m) :
    IndicesSpec text query m.matchedIndices := by
  unfold findBestConsecutiveMatch at h
  have key : ∀ (starts : List Nat) (b : ℚ × List Nat),
      (b.2 = [] ∨ IndicesSpec text query b.2) →
      ((starts.foldl (consecFoldStep text query) b).2 = [] ∨
        IndicesSpec text query (starts.foldl (consecFoldStep text query) b).2) := by
    intro starts
    induction starts with
    | nil => intro b hb; exact hb
    | cons s rest ih =>
        intro b hb
        rw [List.foldl_cons]
        apply ih
        unfold consecFoldStep
        by_cases hq : (consecGo text query s).2.1 = query.length
        · rw [if_pos hq]
          by_cases hsc : b.1 < consecScore text s (consecGo text query s).1
              (consecGo text query s).2.2
          · rw [if_pos hsc]
            exact Or.inr (consecGo_spec text query s hq)
          · rw [if_neg hsc]; exact hb
        · rw [if_neg hq]; exact hb
  have hfold := key (List.range (text.length + 1 - query.length)) (0, []) (Or.inl rfl)
  by_cases hemp : ((List.range (text.length + 1 - query.length)).foldl
      (consecFoldStep text query) (0, [])).2.isEmpty
  · rw [if_pos hemp] at h
    exact absurd h (by simp)
  · rw [if_neg hemp] at h
    have hm := (Option.some.inj h).symm
    subst hm
    rcases hfold with hnil | hspec
    · rw [List.isEmpty_iff] at hemp
      exact absurd hnil hemp
    · exact hspec

theorem foldl_preserve_mem {α β : Type} (P : β → Prop) (Q : α → Prop) (f : β → α → β)
    (hstep : ∀ b a, Q a → P b → P (f b a)) :
    ∀ (l : List α) (b : β), (∀ a ∈ l, Q a) → P b → P (l.foldl f b) := by
  intro l
  induction l with
  | nil => intro b _ hb; exact hb
  | cons a tl ih =>
      intro b hQ hb
      rw [List.foldl_cons]
      exact ih (f b a) (fun x hx => hQ x (List.mem_cons_of_mem a hx))
        (hstep b a (hQ a (List.mem_cons_self a tl)) hb)

theorem seqGoF_spec :
    ∀ (fuel : Nat) (text query : Str) (qI tI : Nat) (cur : List Nat),
      cur.length = qI → qI ≤ query.length →
      cur.Chain' (fun a b => a < b) →
      (∀ x ∈ cur, x < tI) →
      (∀ k, k < qI → cur.getD k 0 < text.length ∧
        (text.getD (cur.getD k 0) dChar).toLower = (query.getD k dChar).toLower) →
      ∀ r, seqGoF fuel text query qI tI cur = some r →
        IndicesSpec text query r ∧ r.length = query.length := by
  intro fuel
  induction fuel with
  | zero =>
      intro text query qI tI cur h1 h2 h3 h4 h5 r hr
      rw [seqGoF] at hr
      by_cases hq : query.length ≤ qI
      · rw [if_pos hq] at hr
        have hcr := Option.some.inj hr
        subst hcr
        have hqe : qI = query.length := le_antisymm h2 hq
        refine ⟨⟨h3, fun k hk => ?_⟩, by rw [h1, hqe]⟩
        rw [h1] at hk
        obtain ⟨ha, hb⟩ := h5 k hk
        exact ⟨by omega, ha, hb⟩
      · rw [if_neg hq] at hr
        by_cases ht : text.length ≤ tI
        · rw [if_pos ht] at hr; exact absurd hr (by simp)
        · rw [if_neg ht] at hr; exact absurd hr (by simp)
  | succ fm ih =>
      intro text query qI tI cur h1 h2 h3 h4 h5 r hr
      rw [seqGoF] at hr
      by_cases hq : query.length ≤ qI
      · rw [if_pos hq] at hr
        have hcr := Option.some.inj hr
        subst hcr
        have hqe : qI = query.length := le_antisymm h2 hq
        refine ⟨⟨h3, fun k hk => ?_⟩, by rw [h1, hqe]⟩
        rw [h1] at hk
        obtain ⟨ha, hb⟩ := h5 k hk
        exact ⟨by omega, ha, hb⟩
      · rw [if_neg hq] at hr
        by_cases ht : text.length ≤ tI
        · rw [if_pos ht] at hr; exact absurd hr (by simp)
        · rw [if_neg ht] at hr
          obtain ⟨p, hp1, hp2⟩ := Option.map_eq_some'.1 hr
          have hqlt : qI < query.length := by omega
          have key := foldl_preserve_mem
            (fun (b : Option (ℚ × List Nat)) => ∀ q, b = some q →
              IndicesSpec text query q.2 ∧ q.2.length = query.length)
            (fun j => tI ≤ j ∧ j < text.length)
            (seqFoldStep fm text query qI cur)
            ?_ (List.range' tI (text.length - tI)) none ?_ (by intro q hq2; cases hq2)
          · exact hp2 ▸ key p hp1
          · intro b j hQ hb q hq2
            unfold seqFoldStep at hq2
            by_cases hchar : text.getD j dChar = query.getD qI dChar
            · rw [if_pos hchar] at hq2
              cases hrec : seqGoF fm text query (qI + 1) (j + 1) (cur ++ [j]) with
              | none => rw [hrec] at hq2; exact hb q hq2
              | some rm =>
                  rw [hrec] at hq2
                  have hrm := ih text query (qI + 1) (j + 1) (cur ++ [j])
                    (by rw [List.length_append, h1]; rfl) (by omega)
                    ?_ ?_ ?_ rm hrec
                  · cases b with
                    | none =>
                        have hq3 : some (scoreMatchSequence text rm, rm) = some q := hq2
                        have := Option.some.inj hq3
                        subst this
                        exact hrm
                    | some pr =>
                        obtain ⟨bs, bm⟩ := pr
                        have hq3 : (if bs < scoreMatchSequence text rm
                            then some (scoreMatchSequence text rm, rm)
                            else some (bs, bm)) = some q := hq2
                        by_cases hlt : bs < scoreMatchSequence text rm
                        · rw [if_pos hlt] at hq3
                          have := Option.some.inj hq3
                          subst this
                          exact hrm
                        · rw [if_neg hlt] at hq3
                          have := Option.some.inj hq3
                          subst this
                          exact hb (bs, bm) rfl
                  · rw [List.chain'_append]
                    refine ⟨h3, List.chain'_singleton j, ?_⟩
                    intro x hx y hy
                    have hxm : x ∈ cur := List.mem_of_getLast?_eq_some hx
                    have hyj : y = j := by cases hy; rfl
                    rw [hyj]
                    calc x < tI := h4 x hxm
                      _ ≤ j := hQ.1
                  · intro x hx
                    rcases List.mem_append.1 hx with hxa | hxj
                    · have := h4 x hxa
                      omega
                    · have hxj2 : x = j := by
                        cases hxj with
                        | head => rfl
                        | tail _ hc => cases hc
                      omega
                  · intro k hk
                    rcases Nat.lt_or_ge k qI with hlt | hge
                    · have hgd : (cur ++ [j]).getD k 0 = cur.getD k 0 :=
                        List.getD_append _ _ _ _ (by omega)
                      obtain ⟨ha, hb2⟩ := h5 k hlt
                      exact ⟨by rw [hgd]; exact ha, by rw [hgd]; exact hb2⟩
                    · have hkeq : k = qI := by omega
                      have hgd : (cur ++ [j]).getD k 0 = j := by
                        rw [hkeq, ← h1, List.getD_append_right _ _ _ _ (le_refl _)]
                        simp
                      refine ⟨by rw [hgd]; exact hQ.2, ?_⟩
                      rw [hgd, hkeq]
                      rw [hchar]
            · rw [if_neg hchar] at hq2
              exact hb q hq2
          · intro j hj
            rw [List.mem_range'] at hj
            obtain ⟨k, hk1, hk2⟩ := hj
            constructor <;> omega

theorem IndicesSpec_nil (text query : Str) : IndicesSpec text query [] :=
  ⟨List.chain'_nil, fun k hk => absurd hk (by simp)⟩

theorem findFuzzyMatch_spec (text query : Str) :
    IndicesSpec text query (findFuzzyMatch text query).matchedIndices := by
  unfold findFuzzyMatch
  by_cases hlen : (findSequentialMatches text query).length ≠ query.length
  · rw [if_pos hlen]
    exact IndicesSpec_nil text query
  · rw [if_neg hlen]
    show IndicesSpec text query (findSequentialMatches text query)
    unfold findSequentialMatches
    cases hs : seqGoF query.length text query 0 0 [] with
    | none => exact IndicesSpec_nil text query
    | some r =>
        have hr := seqGoF_spec query.length text query 0 0 [] rfl (Nat.zero_le _)
          List.chain'_nil (fun x hx => absurd hx (List.not_mem_nil x))
          (fun k hk => absurd hk (Nat.not_lt_zero k)) r hs
        exact hr.1

theorem calculateMatch_spec (text query : Str) :
    IndicesSpec text query (calculateMatch text query).matchedIndices := by
  unfold calculateMatch
  by_cases h0 : query.length = 0
  · rw [if_pos h0]
    exact IndicesSpec_nil text query
  · rw [if_neg h0]
    by_cases h1 : text.length < query.length
    · rw [if_pos h1]
      exact IndicesSpec_nil text query
    · rw [if_neg h1]
      cases hex : findExactMatch text query with
      | some m => exact findExactMatch_spec hex
      | none =>
          cases hcon : findBestConsecutiveMatch text query with
          | some m =>
              show IndicesSpec text query
                (if 0 < m.score then m else findFuzzyMatch text query).matchedIndices
              by_cases hsc : 0 < m.score
              · rw [if_pos hsc]
                exact findBestConsecutiveMatch_spec hcon
              · rw [if_neg hsc]
                exact findFuzzyMatch_spec text query
          | none => exact findFuzzyMatch_spec text query

/-- C2.  For every non-empty query, every match returned by the fuzzy ranker
carries a strictly increasing matched-indices sequence into the candidate's
searchable text, each matched character equal (case-insensitively) to the
corresponding query character. -/
theorem fuzzyRanker_matched_indices :
    ∀ (results : List FuzzySearchResult) (query : Str), query ≠ [] →
      ∀ m ∈ fuzzyFilter results query,
        IndicesSpec (getSearchableText m.result) query m.matchedIndices := by
  intro results query _hq m hm
  unfold fuzzyFilter at hm
  by_cases ht : (jsTrim query).isEmpty
  · rw [if_pos ht] at hm
    obtain ⟨r, _hr, hrm⟩ := List.mem_map.1 hm
    rw [← hrm]
    exact IndicesSpec_nil _ _
  · rw [if_neg ht] at hm
    have hm2 : m ∈ fuzzyFilterPre results query :=
      (List.mem_insertionSort fuzzyMatchLe).1 hm
    unfold fuzzyFilterPre at hm2
    obtain ⟨r, _hr, hsome⟩ := List.mem_filterMap.1 hm2
    by_cases hsc : 0 < (calculateMatch (getSearchableText r) (toLowerStr query)).score
    · rw [if_pos hsc] at hsome
      have hmm := (Option.some.inj hsome).symm
      subst hmm
      exact IndicesSpec_of_lower _ _ _ (calculateMatch_spec _ _)
    · rw [if_neg hsc] at hsome
      exact absurd hsome (by simp)

theorem fuzzyFilter_demo1_eval :
    fuzzyFilter [demoR1] demoQ =
      [⟨demoR1, 1000 + 16 * (demoQ.length : ℚ) + getPositionBonus 2 demoS.length,
          (List.range demoQ.length).map (fun k => 2 + k)⟩] := by
  have hG1 : getSearchableText demoR1 = demoS := by decide
  have hLow : toLowerStr demoQ = demoQ := by decide
  unfold fuzzyFilter
  rw [if_neg (by decide : ¬((jsTrim demoQ).isEmpty = true))]
  unfold fuzzyFilterPre
  simp only [List.filterMap_cons, List.filterMap_nil]
  rw [hG1, hLow, demo_calcMatch_eval]
  rw [if_pos demo_score_pos]
  simp only [List.insertionSort, List.orderedInsert]

theorem fuzzyRanker_matched_indices_witness :
    (demoQ ≠ []) ∧
      IndicesSpec (getSearchableText demoR1) demoQ
        ((List.range demoQ.length).map (fun k => 2 + k)) :=
  ⟨by decide, by
    have h := fuzzyRanker_matched_indices [demoR1] demoQ (by decide)
      ⟨demoR1, 1000 + 16 * (demoQ.length : ℚ) + getPositionBonus 2 demoS.length,
        (List.range demoQ.length).map (fun k => 2 + k)⟩
      (by rw [fuzzyFilter_demo1_eval]; exact List.mem_singleton_self _)
    exact h⟩
